import Mathlib

/-!
Verification of the decorator policy library (`cache`, `retry`, `rate_limit`)
of the python-mastery-playground repository.

The three decorators live in
`src/python_mastery/decorators/{cache,retry,rate_limit}.py`; the error
taxonomy lives in `src/python_mastery/exceptions.py`.  This file gives a
shallow embedding of their synchronous code paths:

* Python values passed as arguments are modelled by the inductive `PyVal`
  (ints, strings, bytearrays, tuples, lists, sets, dicts); a Python `set`
  is modelled as the list of its elements in iteration (encounter) order,
  a `dict` as its `(key, value)` pairs in insertion order.
* `_make_hashable` / `_make_key` become `mkHashable` / `mkKey`, fallible
  (`Except String`) because Python's `sorted` raises `TypeError` on
  incomparable keys; unhashability of the finished key (which Python only
  detects when the key is first hashed, at `key in cache_store`) is
  modelled by the `canHash` check in the wrapper.
* The `OrderedDict` cache store becomes a list of `(key, value, timestamp)`
  entries, least-recently-used first; `move_to_end` / `popitem(last=False)`
  become list operations.
* Wall-clock time is ℚ; each wrapper invocation happens at one instant
  (the model target computes instantaneously, matching the claims'
  "no interleaved concurrent calls" setting).
* `raise` becomes an explicit error value; the number of invocations of the
  wrapped target is returned alongside so "the target is invoked n times"
  is a statement about the model.
-/

/-- A universe of Python argument values, as handled by `_make_hashable`
in `decorators/cache.py`.  `vset` carries the elements in iteration
(encounter) order; `vdict` carries `(key, value)` pairs in insertion
order; `vbytearray` is the representative unhashable leaf value. -/
inductive PyVal where
  | vint (n : Int)
  | vstr (s : String)
  | vbytearray (data : List Nat)
  | vtuple (xs : List PyVal)
  | vlist (xs : List PyVal)
  | vset (xs : List PyVal)
  | vdict (ps : List (PyVal × PyVal))

mutual

/-- Structural boolean equality on `PyVal` (Python `==` on the values the
model covers: the numeric/str/bytes leaves and containers compared
element-wise). -/
def PyVal.beq : PyVal → PyVal → Bool
  | .vint a, .vint b => a == b
  | .vstr a, .vstr b => a == b
  | .vbytearray a, .vbytearray b => a == b
  | .vtuple a, .vtuple b => PyVal.beqList a b
  | .vlist a, .vlist b => PyVal.beqList a b
  | .vset a, .vset b => PyVal.beqList a b
  | .vdict a, .vdict b => PyVal.beqPairs a b
  | _, _ => false

def PyVal.beqList : List PyVal → List PyVal → Bool
  | [], [] => true
  | x :: xs, y :: ys => PyVal.beq x y && PyVal.beqList xs ys
  | _, _ => false

def PyVal.beqPairs : List (PyVal × PyVal) → List (PyVal × PyVal) → Bool
  | [], [] => true
  | p :: ps, q :: qs => PyVal.beq p.1 q.1 && PyVal.beq p.2 q.2 && PyVal.beqPairs ps qs
  | _, _ => false

end

mutual

theorem PyVal.beq_refl : (v : PyVal) → PyVal.beq v v = true
  | .vint n => by simp [PyVal.beq]
  | .vstr s => by simp [PyVal.beq]
  | .vbytearray d => by simp [PyVal.beq]
  | .vtuple xs => by simp [PyVal.beq, PyVal.beqList_refl xs]
  | .vlist xs => by simp [PyVal.beq, PyVal.beqList_refl xs]
  | .vset xs => by simp [PyVal.beq, PyVal.beqList_refl xs]
  | .vdict ps => by simp [PyVal.beq, PyVal.beqPairs_refl ps]

theorem PyVal.beqList_refl : (xs : List PyVal) → PyVal.beqList xs xs = true
  | [] => by simp [PyVal.beqList]
  | x :: xs => by simp [PyVal.beqList, PyVal.beq_refl x, PyVal.beqList_refl xs]

theorem PyVal.beqPairs_refl : (ps : List (PyVal × PyVal)) → PyVal.beqPairs ps ps = true
  | [] => by simp [PyVal.beqPairs]
  | p :: ps => by
      simp [PyVal.beqPairs, PyVal.beq_refl p.1, PyVal.beq_refl p.2, PyVal.beqPairs_refl ps]

end

/-- Lexicographic order on byte sequences (Python `bytearray < bytearray`). -/
def natListLt : List Nat → List Nat → Bool
  | [], [] => false
  | [], _ :: _ => true
  | _ :: _, [] => false
  | a :: as_, b :: bs => if a = b then natListLt as_ bs else decide (a < b)

mutual

/-- Python `<` on the values that can appear while `sorted` compares
`(key, canonicalized-value)` pairs: numbers, strings, bytearrays and
tuples compare; any cross-type comparison raises `TypeError`, modelled
as `Except.error`. -/
def pyLt : PyVal → PyVal → Except String Bool
  | .vint a, .vint b => .ok (decide (a < b))
  | .vstr a, .vstr b => .ok (decide (a < b))
  | .vbytearray a, .vbytearray b => .ok (natListLt a b)
  | .vtuple a, .vtuple b => pyLtList a b
  | _, _ => .error "TypeError: unorderable types"

/-- Lexicographic comparison of tuple contents, as Python compares
tuples: skip equal prefixes, compare the first differing elements, a
strict prefix is smaller. -/
def pyLtList : List PyVal → List PyVal → Except String Bool
  | [], [] => .ok false
  | [], _ :: _ => .ok true
  | _ :: _, [] => .ok false
  | x :: xs, y :: ys =>
      if PyVal.beq x y then pyLtList xs ys else pyLt x y

end

/-- Python `<` on the `(key, canonicalized-value)` pairs that
`_make_hashable` sorts for a dict argument: tuple comparison — equal
first components fall through to the second, otherwise the first
components decide. -/
def pyLtPair (p q : PyVal × PyVal) : Except String Bool :=
  if PyVal.beq p.1 q.1 then pyLt p.2 q.2 else pyLt p.1 q.1

/-- Insert `x` into the (already sorted) list `l`, mirroring how
Python's stable `sorted` places an element: before the first strictly
greater element.  Propagates the `TypeError` of an incomparable pair. -/
def insertE (x : PyVal × PyVal) : List (PyVal × PyVal) → Except String (List (PyVal × PyVal))
  | [] => .ok [x]
  | y :: ys => do
      let b ← pyLtPair x y
      if b then
        pure (x :: y :: ys)
      else do
        pure (y :: (← insertE x ys))

/-- `sorted` on a list of `(key, canonicalized-value)` pairs
(insertion-sort formulation); raises (`Except.error`) when Python's
`sorted` would raise `TypeError` on incomparable elements. -/
def sortE : List (PyVal × PyVal) → Except String (List (PyVal × PyVal))
  | [] => .ok []
  | p :: ps => do insertE p (← sortE ps)

mutual

/-- `_make_hashable` from `decorators/cache.py`: a dict becomes the
sorted tuple of its `(key, _make_hashable(value))` pairs (keys are left
as-is — they are already hashable); a list or a set becomes the tuple of
its canonicalized elements in encounter order; everything else is
returned unchanged.  Fallible because sorting the pairs of a dict with
incomparable keys raises `TypeError`. -/
def mkHashable : PyVal → Except String PyVal
  | .vdict ps => do
      let ps' ← mkHashablePairs ps
      let sorted ← sortE ps'
      pure (.vtuple (sorted.map (fun p => .vtuple [p.1, p.2])))
  | .vlist xs => do pure (.vtuple (← mkHashableList xs))
  | .vset xs => do pure (.vtuple (← mkHashableList xs))
  | v => pure v

def mkHashableList : List PyVal → Except String (List PyVal)
  | [] => pure []
  | x :: xs => do pure ((← mkHashable x) :: (← mkHashableList xs))

def mkHashablePairs : List (PyVal × PyVal) → Except String (List (PyVal × PyVal))
  | [] => pure []
  | p :: ps => do pure ((p.1, ← mkHashable p.2) :: (← mkHashablePairs ps))

end

/-- `_make_key` from `decorators/cache.py`: the pair of the canonicalized
positional arguments (in order) and the canonicalized keyword arguments
sorted by name.  Keyword names are Python `str`s and are unique, so
sorting the `(name, value)` pairs is sorting by name and never raises. -/
def mkKey (args : List PyVal) (kwargs : List (String × PyVal)) : Except String PyVal := do
  let hargs ← mkHashableList args
  let hkwargs ← kwargs.mapM (fun p => do pure (p.1, ← mkHashable p.2))
  let sortedKw := List.insertionSort (fun a b => a.1 ≤ b.1) hkwargs
  pure (.vtuple [.vtuple hargs,
                 .vtuple (sortedKw.map (fun p => .vtuple [.vstr p.1, p.2]))])

mutual

/-- Whether a finished cache key is hashable: ints, strings and tuples of
hashables are; a bytearray (or any container that survived
canonicalization only as a leaf) is not.  Python detects this when the
wrapper first evaluates `key in cache_store`. -/
def canHash : PyVal → Bool
  | .vint _ => true
  | .vstr _ => true
  | .vbytearray _ => false
  | .vtuple xs => canHashList xs
  | .vlist _ => false
  | .vset _ => false
  | .vdict _ => false

/-- All elements of a tuple are hashable. -/
def canHashList : List PyVal → Bool
  | [] => true
  | x :: xs => canHash x && canHashList xs

end

/-! ## The cache store (`OrderedDict` keyed by canonical keys)

One entry is `(key, result, timestamp)`.  The list is kept in LRU order:
head = least recently used (what `popitem(last=False)` removes), last =
most recently used (where `move_to_end` puts an entry). -/

/-- The per-wrapped-callable `cache_store : OrderedDict[tuple, tuple[Any, float]]`. -/
abbrev CacheStore (α : Type) := List (PyVal × α × ℚ)

/-- `key in cache_store` / `cache_store[key]` (keys are unique in an
`OrderedDict`, so scanning for the first match is the lookup). -/
def lookupStore {α : Type} (s : CacheStore α) (k : PyVal) : Option (α × ℚ) :=
  match s with
  | [] => none
  | e :: es => if PyVal.beq e.1 k then some e.2 else lookupStore es k

/-- `del cache_store[key]` (and the removal half of `move_to_end`). -/
def eraseKey {α : Type} (s : CacheStore α) (k : PyVal) : CacheStore α :=
  s.filter (fun e => !(PyVal.beq e.1 k))

/-- `_get_cached` from `decorators/cache.py`: a live entry (age < ttl) is
moved to the most-recently-used end and its result returned; an expired
entry is deleted; an absent key leaves the store unchanged.  Returns
`(found-result, updated store)`. -/
def getCached {α : Type} (ttl : ℚ) (s : CacheStore α) (key : PyVal) (currentTime : ℚ) :
    Option α × CacheStore α :=
  match lookupStore s key with
  | some (cachedResult, timestamp) =>
      if currentTime - timestamp < ttl then
        (some cachedResult, eraseKey s key ++ [(key, cachedResult, timestamp)])
      else
        (none, eraseKey s key)
  | none => (none, s)

/-- `while len(cache_store) > maxsize: cache_store.popitem(last=False)`. -/
def evictLoop {α : Type} (maxsize : ℕ) : CacheStore α → CacheStore α
  | [] => []
  | e :: es => if maxsize < (e :: es).length then evictLoop maxsize es else e :: es

/-- `_store_result` from `decorators/cache.py`: write the entry, move it
to the most-recently-used end, then evict least-recently-used entries
while the bound (when set) is exceeded. -/
def storeResult {α : Type} (maxsize : Option ℕ) (s : CacheStore α) (key : PyVal)
    (result : α) (now : ℚ) : CacheStore α :=
  let s' := eraseKey s key ++ [(key, result, now)]
  match maxsize with
  | none => s'
  | some m => evictLoop m s'

/-- The synchronous `wrapper` from `decorators/cache.py`, one invocation
at instant `now`: make the key (a `TypeError` there surfaces before
anything else), hash it for the store lookup (an unhashable key raises
`TypeError` at `key in cache_store`), serve a live entry, otherwise
invoke the target and store the result.  The final `ℕ` counts how many
times the target was invoked during this call. -/
def cacheWrapper {α : Type} (ttl : ℚ) (maxsize : Option ℕ)
    (f : List PyVal → List (String × PyVal) → α)
    (args : List PyVal) (kwargs : List (String × PyVal))
    (s : CacheStore α) (now : ℚ) :
    Except String (α × CacheStore α) × ℕ :=
  match mkKey args kwargs with
  | .error e => (.error e, 0)
  | .ok key =>
      if canHash key then
        match getCached ttl s key now with
        | (some cachedResult, s') => (.ok (cachedResult, s'), 0)
        | (none, s') =>
            let result := f args kwargs
            (.ok (result, storeResult maxsize s' key result now), 1)
      else (.error "TypeError: unhashable type", 0)

/-! ## The rate limiter (`decorators/rate_limit.py`) -/

/-- `RateLimitExceeded` from `exceptions.py`: carries the configured
`calls` and `period` and the computed `wait_time`. -/
structure RateLimitExceeded where
  calls : ℕ
  period : ℚ
  wait_time : ℚ
  deriving DecidableEq

/-- `_check_rate_limit` from `decorators/rate_limit.py`: prune timestamps
older than `period`, reject (without recording) when `calls` many remain,
otherwise record `currentTime`.  The pruned list is written back to
`call_times` in both cases (the `nonlocal` reassignment happens before
the `raise`).  Note `min(call_times)` is only evaluated on a nonempty
list whenever `calls ≥ 1` (the `getD 0` default is unreachable then). -/
def checkRateLimit (calls : ℕ) (period : ℚ) (callTimes : List ℚ) (currentTime : ℚ) :
    Option RateLimitExceeded × List ℚ :=
  let pruned := callTimes.filter (fun t => currentTime - t < period)
  if calls ≤ pruned.length then
    let oldestCall := pruned.min?.getD 0
    (some ⟨calls, period, period - (currentTime - oldestCall)⟩, pruned)
  else
    (none, pruned ++ [currentTime])

/-- The synchronous `wrapper` from `decorators/rate_limit.py`: run the
admission check; on rejection the target is not invoked and the error
propagates; on admission the target runs.  The final `ℕ` counts target
invocations during this call. -/
def rateLimitWrapper {α : Type} (calls : ℕ) (period : ℚ) (f : Unit → α)
    (callTimes : List ℚ) (now : ℚ) :
    Except RateLimitExceeded α × List ℚ × ℕ :=
  match checkRateLimit calls period callTimes now with
  | (some e, ts) => (.error e, ts, 0)
  | (none, ts) => (.ok (f ()), ts, 1)

/-! ## The retry wrapper (`decorators/retry.py`) -/

/-- Python exception values, identified by kind (class) and message.
`retry` is configured with a set of kinds to catch. -/
inductive PyExc where
  | valueError (msg : String)
  | typeError (msg : String)
  | runtimeError (msg : String)
  | connectionError (msg : String)
  deriving DecidableEq

/-- `RetryExhausted` from `exceptions.py`: carries the target's name, the
attempt count, and the last underlying exception. -/
structure RetryExhausted where
  func_name : String
  max_attempts : ℕ
  last_exception : PyExc
  deriving DecidableEq

/-- What one call of a retry-wrapped target can do: return a value,
propagate a non-qualifying exception unmodified, or raise
`RetryExhausted`. -/
inductive RetryOutcome (α : Type) where
  | ok (val : α)
  | raised (e : PyExc)
  | exhausted (r : RetryExhausted)

/-- The observable trace of one invocation of a retry-wrapped callable:
its outcome, the number of target invocations, and the durations of the
`time.sleep(current_delay)` waits, in order. -/
structure RetryTrace (α : Type) where
  outcome : RetryOutcome α
  invocations : ℕ
  waits : List ℚ

/-- The `while attempts < max_attempts` loop of the synchronous `wrapper`
in `decorators/retry.py`.  `f i` is what the target does on its `i`-th
invocation (1-indexed); `exceptions` is membership in the configured
tuple of retryable exception kinds.  The fall-through after the loop
("should never reach here") raises `RetryExhausted` with the sentinel
`RuntimeError("No attempts made")`; it is reachable only when the loop
never runs (`max_attempts = 0`), since inside the loop the
`attempts == max_attempts` branch fires on the last iteration. -/
def retryLoop {α : Type} (f : ℕ → Except PyExc α) (exceptions : PyExc → Bool)
    (funcName : String) (maxAttempts : ℕ) (backoff : ℚ)
    (attempts : ℕ) (currentDelay : ℚ) : RetryTrace α :=
  if h : attempts < maxAttempts then
    match f (attempts + 1) with
    | .ok result => ⟨.ok result, 1, []⟩
    | .error e =>
        if exceptions e then
          if attempts + 1 = maxAttempts then
            ⟨.exhausted ⟨funcName, maxAttempts, e⟩, 1, []⟩
          else
            let rest := retryLoop f exceptions funcName maxAttempts backoff
              (attempts + 1) (currentDelay * backoff)
            ⟨rest.outcome, rest.invocations + 1, currentDelay :: rest.waits⟩
        else ⟨.raised e, 1, []⟩
  else
    ⟨.exhausted ⟨funcName, maxAttempts, .runtimeError "No attempts made"⟩, 0, []⟩
termination_by maxAttempts - attempts

/-- The synchronous `wrapper` from `decorators/retry.py`: start with
`attempts = 0` and `current_delay = delay`. -/
def retryWrapper {α : Type} (maxAttempts : ℕ) (delay : ℚ) (exceptions : PyExc → Bool)
    (backoff : ℚ) (funcName : String) (f : ℕ → Except PyExc α) : RetryTrace α :=
  retryLoop f exceptions funcName maxAttempts backoff 0 delay

/-! ## Concrete targets and configurations used to instantiate the theorems -/

/-- A target that fails with a retryable `ConnectionError` on every attempt. -/
def alwaysFailTarget : ℕ → Except PyExc String :=
  fun _ => .error (.connectionError "boom")

/-- A target that fails on attempts 1 and 2 and returns `"ok"` on attempt 3. -/
def flakyTarget : ℕ → Except PyExc String :=
  fun i => if i < 3 then .error (.connectionError "boom") else .ok "ok"

/-- A target that always raises a `ValueError`. -/
def valueErrorTarget : ℕ → Except PyExc String :=
  fun _ => .error (.valueError "bad input")

/-- `exceptions = (Exception,)` — the default: every exception qualifies. -/
def catchAll : PyExc → Bool := fun _ => true

/-- `exceptions = (ConnectionError,)` — only connection errors qualify. -/
def catchConnectionError : PyExc → Bool :=
  fun e => match e with
  | .connectionError _ => true
  | _ => false

/-- A simple cacheable target returning a constant. -/
def constTarget : List PyVal → List (String × PyVal) → ℕ := fun _ _ => 10

/-- A cacheable target that counts its positional arguments. -/
def arityTarget : List PyVal → List (String × PyVal) → ℕ := fun args _ => args.length

/-- A rate-limited target returning a constant. -/
def unitTarget : Unit → ℕ := fun _ => 7

/-- Default of `keyStr` on the string key of a pair; used to compare
string-keyed dict entries through the `String` linear order. -/
def keyStr : PyVal → String
  | .vstr s => s
  | _ => ""

/-- Default of `keyInt` on the int key of a pair; used to compare
int-keyed dict entries through the `Int` linear order. -/
def keyInt : PyVal → Int
  | .vint n => n
  | _ => 0

/-- The rate-limit window state after `n` immediate consecutive calls of
the wrapped function, all at instant `now`, starting from the empty
window: each call runs the wrapper on the state the previous call left
behind. -/
def rlImmediate {α : Type} (calls : ℕ) (period : ℚ) (f : Unit → α) (now : ℚ) : ℕ → List ℚ
  | 0 => []
  | n + 1 => (rateLimitWrapper calls period f (rlImmediate calls period f now n) now).2.1

/-- Successive cache insertions: run `_store_result` once per key in
`ks`, at instant `t`, with `r k` the result stored under key `k` —
the store evolution of a sequence of cache misses with distinct
arguments and no intervening reads. -/
def insertFresh {α : Type} (maxsize : Option ℕ) (t : ℚ) (r : PyVal → α)
    (s : CacheStore α) (ks : List PyVal) : CacheStore α :=
  ks.foldl (fun acc k => storeResult maxsize acc k (r k) t) s

/-! ## Retry wrapper: supporting lemmas -/

/-- Unfolding the retry loop below `max_attempts`: when every attempt
from `a + 1` through `N` fails with a qualifying exception, the loop
exhausts, raising `RetryExhausted` carrying the target's name, `N`, and
the exception of attempt `N`, after `N - a` further target invocations. -/
theorem retryLoop_all_qualifying_fail {α : Type}
    (f : ℕ → Except PyExc α) (q : PyExc → Bool) (name : String)
    (N : ℕ) (backoff : ℚ) (eN : PyExc)
    (hfail : ∀ i, 1 ≤ i → i ≤ N → ∃ e, f i = .error e ∧ q e = true)
    (hN : f N = .error eN) :
    ∀ a cd, a < N →
      (retryLoop f q name N backoff a cd).outcome = .exhausted ⟨name, N, eN⟩ ∧
      (retryLoop f q name N backoff a cd).invocations = N - a := by
  intro a cd ha
  obtain ⟨e, hfe, hqe⟩ := hfail (a + 1) (by omega) (by omega)
  rw [retryLoop]
  by_cases hlast : a + 1 = N
  · subst hlast
    rw [hN] at hfe
    cases hfe
    simp [ha, hN, hqe]
  · have ih := retryLoop_all_qualifying_fail f q name N backoff eN hfail hN
      (a + 1) (cd * backoff) (by omega)
    simp only [dif_pos ha, hfe, hqe, if_true, if_neg hlast]
    refine ⟨ih.1, ?_⟩
    simp only [ih.2]
    omega
termination_by a => N - a

/-- C2: a retry-wrapped target that fails with a qualifying failure on
every attempt, with `max_attempts = N`, is invoked exactly N times, and
the caller observes a `RetryExhausted` failure — the only failure the
wrapper raises on exhaustion — carrying the target's name, the attempt
count N, and the last underlying qualifying exception. -/
theorem retry_exhaustion {α : Type} (N : ℕ) (delay backoff : ℚ)
    (q : PyExc → Bool) (name : String) (f : ℕ → Except PyExc α) (eN : PyExc)
    (hN1 : 1 ≤ N)
    (hfail : ∀ i, 1 ≤ i → i ≤ N → ∃ e, f i = .error e ∧ q e = true)
    (hNe : f N = .error eN) :
    (retryWrapper N delay q backoff name f).outcome = .exhausted ⟨name, N, eN⟩ ∧
    (retryWrapper N delay q backoff name f).invocations = N := by
  have h := retryLoop_all_qualifying_fail f q name N backoff eN hfail hNe 0 delay
    (by omega)
  exact ⟨h.1, by rw [retryWrapper, h.2]; omega⟩

/-- Witness for C2: `retry(max_attempts=3)` around a target that always
raises a retryable `ConnectionError` invokes it 3 times and raises
`RetryExhausted("f", 3, last exception)`. -/
theorem retry_exhaustion_witness :
    (retryWrapper 3 1 catchAll 1 "f" alwaysFailTarget).outcome =
      .exhausted ⟨"f", 3, .connectionError "boom"⟩ ∧
    (retryWrapper 3 1 catchAll 1 "f" alwaysFailTarget).invocations = 3 :=
  retry_exhaustion 3 1 1 catchAll "f" alwaysFailTarget (.connectionError "boom")
    (by omega) (fun i _ _ => ⟨.connectionError "boom", rfl, rfl⟩) rfl

/-- Unfolding the retry loop below `max_attempts`: when attempts
`a + 1 .. k - 1` fail with qualifying exceptions and attempt `k` returns
`v` (with `k ≤ N`), the loop returns `v` after `k - a` target
invocations, waiting `cd * backoff ^ i` before each re-attempt. -/
theorem retryLoop_succeeds_at {α : Type}
    (f : ℕ → Except PyExc α) (q : PyExc → Bool) (name : String)
    (N k : ℕ) (backoff : ℚ) (v : α)
    (hkN : k ≤ N)
    (hfail : ∀ i, 1 ≤ i → i < k → ∃ e, f i = .error e ∧ q e = true)
    (hok : f k = .ok v) :
    ∀ a cd, a < k →
      retryLoop f q name N backoff a cd =
        ⟨.ok v, k - a, (List.range (k - a - 1)).map (fun i => cd * backoff ^ i)⟩ := by
  intro a cd ha
  rw [retryLoop]
  by_cases hlast : a + 1 = k
  · subst hlast
    simp [Nat.lt_of_lt_of_le ha hkN, hok]
  · obtain ⟨e, hfe, hqe⟩ := hfail (a + 1) (by omega) (by omega)
    have hih := retryLoop_succeeds_at f q name N k backoff v hkN hfail hok
      (a + 1) (cd * backoff) (by omega)
    have hne : ¬(a + 1 = N) := by omega
    simp only [dif_pos (by omega : a < N), hfe, hqe, if_true, if_neg hne, hih]
    refine congrArg₂ _ (by omega) ?_
    have hk : k - a - 1 = (k - a - 2) + 1 := by omega
    rw [hk, List.range_succ_eq_map, List.map_cons, List.map_map]
    have hk2 : k - (a + 1) - 1 = k - a - 2 := by omega
    rw [hk2]
    refine congrArg₂ _ (by ring_nf) ?_
    refine List.map_congr_left ?_
    intro i _
    simp only [Function.comp_apply, pow_succ]
    ring
termination_by a => k - a

/-- C6: a retry-wrapped target that fails with qualifying failures on
attempts 1..k−1 and succeeds on attempt k (k ≤ max_attempts) returns the
success value, invokes the target exactly k times, and performs exactly
k−1 inter-attempt waits, the i-th lasting `delay * backoff ^ (i-1)`. -/
theorem retry_success_after_failure {α : Type} (N k : ℕ) (delay backoff : ℚ)
    (q : PyExc → Bool) (name : String) (f : ℕ → Except PyExc α) (v : α)
    (hk1 : 1 ≤ k) (hkN : k ≤ N)
    (hfail : ∀ i, 1 ≤ i → i < k → ∃ e, f i = .error e ∧ q e = true)
    (hok : f k = .ok v) :
    retryWrapper N delay q backoff name f =
      ⟨.ok v, k, (List.range (k - 1)).map (fun i => delay * backoff ^ i)⟩ := by
  have h := retryLoop_succeeds_at f q name N k backoff v hkN hfail hok 0 delay
    (by omega)
  rw [retryWrapper, h]
  simp

/-- Witness for C6: `retry(max_attempts=3, delay=0.01, backoff=2.0)`
around a target failing on attempts 1 and 2 and returning `"ok"` on
attempt 3 yields `"ok"`, 3 invocations, and waits 0.01 then 0.02,
for a total wait of 0.03. -/
theorem retry_success_after_failure_witness :
    retryWrapper 3 (1/100) catchAll 2 "f" flakyTarget = ⟨.ok "ok", 3, [1/100, 1/50]⟩ ∧
    (retryWrapper 3 (1/100) catchAll 2 "f" flakyTarget).waits.sum = 3/100 := by
  have h := retry_success_after_failure 3 3 (1/100) 2 catchAll "f" flakyTarget "ok"
    (by omega) (by omega)
    (fun i h1 h2 => ⟨.connectionError "boom", by simp [flakyTarget, h2], rfl⟩)
    (by simp [flakyTarget])
  have hr : (List.range (3 - 1)).map (fun i => (1/100 : ℚ) * 2 ^ i) = [1/100, 1/50] := by
    norm_num [List.range_succ]
  rw [h, hr]
  exact ⟨rfl, by norm_num [List.sum_cons]⟩

/-- C7: a retry-wrapped target that fails with a non-qualifying failure
is invoked exactly once; the original failure propagates immediately and
unmodified (not wrapped in `RetryExhausted`), with no waits. -/
theorem retry_nonqualifying_bypass {α : Type} (N : ℕ) (delay backoff : ℚ)
    (q : PyExc → Bool) (name : String) (f : ℕ → Except PyExc α) (e : PyExc)
    (hN : 1 ≤ N) (hf : f 1 = .error e) (hq : q e = false) :
    retryWrapper N delay q backoff name f = ⟨.raised e, 1, []⟩ := by
  rw [retryWrapper, retryLoop]
  simp only [dif_pos (show 0 < N by omega), Nat.zero_add, hf, hq]
  simp

/-- Witness for C7: a `ValueError`-raising target under
`retry(exceptions=(ConnectionError,))` propagates the `ValueError`
itself after a single invocation. -/
theorem retry_nonqualifying_bypass_witness :
    retryWrapper 3 1 catchConnectionError 1 "f" valueErrorTarget =
      ⟨.raised (.valueError "bad input"), 1, []⟩ :=
  retry_nonqualifying_bypass 3 1 1 catchConnectionError "f" valueErrorTarget
    (.valueError "bad input") (by omega) rfl rfl

/-! ## Rate-limit wrapper: supporting lemmas -/

/-- Pruning keeps every timestamp equal to `now` when the period is
positive. -/
theorem filter_replicate_now (period now : ℚ) (h : 0 < period) (j : ℕ) :
    (List.replicate j now).filter (fun t => decide (now - t < period)) =
      List.replicate j now := by
  refine List.filter_eq_self.mpr ?_
  intro t ht
  rw [List.eq_of_mem_replicate ht]
  simpa using h

/-- The minimum of a nonempty constant list is its constant. -/
theorem min?_replicate_succ (j : ℕ) (t : ℚ) :
    (List.replicate (j + 1) t).min? = some t := by
  rw [List.replicate_succ, List.min?_cons']
  congr 1
  induction j with
  | zero => simp
  | succ n ih => rw [List.replicate_succ, List.foldl_cons, min_self, ih]

/-- After `j < C` immediate calls at `now`, the window holds `j` copies
of `now` and the next immediate call is admitted. -/
theorem rlImmediate_eq_replicate {α : Type} (C : ℕ) (period : ℚ) (f : Unit → α)
    (now : ℚ) (hp : 0 < period) :
    ∀ j, j ≤ C → rlImmediate C period f now j = List.replicate j now := by
  intro j
  induction j with
  | zero => intro _; rfl
  | succ n ih =>
      intro hn
      rw [rlImmediate, ih (by omega), rateLimitWrapper, checkRateLimit]
      simp only [filter_replicate_now period now hp n, List.length_replicate]
      rw [if_neg (by omega)]
      simp [List.replicate_succ']

/-- C3: a `rate_limit(calls, period)` call that finds `calls`-many live
timestamps after pruning fails with a `RateLimitExceeded` carrying
`calls`, `period` and `wait_time = period - (now - oldest)`, with
`wait_time > 0`; the rejected call records no new timestamp and never
invokes the target.  Consequently C immediate calls all succeed and the
(C+1)-th immediate call fails with `wait_time = period > 0`. -/
theorem rate_limit_reject {α : Type} (f : Unit → α) :
    (∀ (calls : ℕ) (period : ℚ) (times : List ℚ) (now : ℚ),
      1 ≤ calls →
      calls ≤ (times.filter (fun t => decide (now - t < period))).length →
      ∃ err : RateLimitExceeded,
        rateLimitWrapper calls period f times now =
          (.error err, times.filter (fun t => decide (now - t < period)), 0) ∧
        err.calls = calls ∧ err.period = period ∧
        err.wait_time =
          period - (now - (times.filter (fun t => decide (now - t < period))).min?.getD 0) ∧
        0 < err.wait_time) ∧
    (∀ (C : ℕ) (period now : ℚ), 1 ≤ C → 0 < period →
      (∀ j, j < C →
        rateLimitWrapper C period f (rlImmediate C period f now j) now =
          (.ok (f ()), List.replicate (j + 1) now, 1)) ∧
      (∃ err : RateLimitExceeded,
        rateLimitWrapper C period f (rlImmediate C period f now C) now =
          (.error err, List.replicate C now, 0) ∧
        err.wait_time = period ∧ 0 < err.wait_time)) := by
  constructor
  · intro calls period times now hc hlen
    set pruned := times.filter (fun t => decide (now - t < period)) with hpruned
    refine ⟨⟨calls, period, period - (now - pruned.min?.getD 0)⟩, ?_, rfl, rfl, rfl, ?_⟩
    · rw [rateLimitWrapper, checkRateLimit]
      simp only [← hpruned, if_pos hlen]
    · obtain ⟨m, hm⟩ : ∃ m, pruned.min? = some m := by
        cases hp : pruned with
        | nil => rw [hp] at hlen; simp at hlen; omega
        | cons a as => exact ⟨_, by rw [List.min?_cons']⟩
      have hmem : m ∈ pruned := List.min?_mem (fun a b => min_choice a b) hm
      have hlt : now - m < period := by
        have := List.of_mem_filter hmem
        simpa using this
      rw [hm]
      simp only [Option.getD_some]
      linarith
  · intro C period now hC hp
    constructor
    · intro j hj
      rw [rlImmediate_eq_replicate C period f now hp j (by omega),
        rateLimitWrapper, checkRateLimit]
      simp only [filter_replicate_now period now hp j, List.length_replicate]
      rw [if_neg (by omega)]
      simp [List.replicate_succ']
    · refine ⟨⟨C, period, period⟩, ?_, rfl, hp⟩
      rw [rlImmediate_eq_replicate C period f now hp C (by omega),
        rateLimitWrapper, checkRateLimit]
      simp only [filter_replicate_now period now hp C, List.length_replicate]
      rw [if_pos (by omega)]
      have hC1 : C = (C - 1) + 1 := by omega
      rw [hC1, min?_replicate_succ]
      simp

/-- Witness for C3: with `calls = 2, period = 1`, two immediate calls
succeed and the third immediate call is rejected with
`wait_time = 1 > 0`, recording nothing. -/
theorem rate_limit_reject_witness :
    (∀ j, j < 2 →
      rateLimitWrapper 2 1 unitTarget (rlImmediate 2 1 unitTarget 0 j) 0 =
        (.ok 7, List.replicate (j + 1) 0, 1)) ∧
    (∃ err : RateLimitExceeded,
      rateLimitWrapper 2 1 unitTarget (rlImmediate 2 1 unitTarget 0 2) 0 =
        (.error err, List.replicate 2 0, 0) ∧
      err.wait_time = 1 ∧ 0 < err.wait_time) :=
  (rate_limit_reject unitTarget).2 2 1 0 (by omega) (by norm_num)

/-- C8: the admission check admits a call exactly when the pruned window
holds fewer than `calls` timestamps, so the recorded window never
exceeds `calls` entries at the moment a call is admitted; and since
admission looks only at the trailing `period`, a call made at least
`period` after the oldest recorded timestamp is admitted again. -/
theorem rate_limit_window_invariant {α : Type} (f : Unit → α) :
    (∀ (calls : ℕ) (period : ℚ) (times : List ℚ) (now : ℚ),
      ((checkRateLimit calls period times now).1 = none ↔
        (times.filter (fun t => decide (now - t < period))).length < calls) ∧
      ((checkRateLimit calls period times now).1 = none →
        (checkRateLimit calls period times now).2.length ≤ calls)) ∧
    (∀ (calls : ℕ) (period : ℚ) (times : List ℚ) (now m0 : ℚ),
      1 ≤ calls → times.length ≤ calls →
      times.min? = some m0 → period ≤ now - m0 →
      ∃ r, rateLimitWrapper calls period f times now = (.ok (f ()), r, 1)) := by
  constructor
  · intro calls period times now
    rw [checkRateLimit]
    set pruned := times.filter (fun t => decide (now - t < period)) with hpruned
    by_cases h : calls ≤ pruned.length
    · rw [if_pos h]
      constructor
      · constructor
        · intro habs; simp at habs
        · intro habs; omega
      · intro habs; simp at habs
    · rw [if_neg h]
      constructor
      · simp; omega
      · intro _
        simp only [List.length_append, List.length_singleton]
        omega
  · intro calls period times now m0 hc hlen hmin hold
    have hmem : m0 ∈ times := List.min?_mem (fun a b => min_choice a b) hmin
    have hnot : ¬(now - m0 < period) := by linarith
    have hsplit := List.length_eq_length_filter_add
      (l := times) (fun t => decide (now - t < period))
    have hmem2 : m0 ∈ times.filter (fun t => !decide (now - t < period)) :=
      List.mem_filter.mpr ⟨hmem, by simpa using hnot⟩
    have hpos : 0 < (times.filter (fun t => !decide (now - t < period))).length :=
      List.length_pos.mpr (List.ne_nil_of_mem hmem2)
    have hprlt : (times.filter (fun t => decide (now - t < period))).length < calls := by
      omega
    refine ⟨times.filter (fun t => decide (now - t < period)) ++ [now], ?_⟩
    rw [rateLimitWrapper, checkRateLimit]
    rw [if_neg (by omega)]

/-- Witness for C8: with `calls = 1, period = 1` and one timestamp at 0,
a call at `now = 1` (exactly `period` past the oldest) is admitted, and
the admission-bound clause holds at that state. -/
theorem rate_limit_window_invariant_witness :
    ((checkRateLimit 1 1 [0] 1).1 = none ↔
      (([0] : List ℚ).filter (fun t => decide ((1 : ℚ) - t < 1))).length < 1) ∧
    (∃ r, rateLimitWrapper 1 1 unitTarget [0] 1 = (.ok 7, r, 1)) :=
  ⟨((rate_limit_window_invariant unitTarget).1 1 1 [0] 1).1,
   (rate_limit_window_invariant unitTarget).2 1 1 [0] 1 0 (by omega) (by simp)
     (by rw [List.min?_cons']; simp) (by norm_num)⟩

/-! ## Cache wrapper: supporting lemmas -/

/-- Erasing a key that no entry carries leaves the store unchanged. -/
theorem eraseKey_of_fresh {α : Type} (s : CacheStore α) (k : PyVal)
    (h : ∀ e ∈ s, PyVal.beq e.1 k = false) : eraseKey s k = s := by
  refine List.filter_eq_self.mpr ?_
  intro e he
  simp [h e he]

/-- The eviction loop does nothing when the store is within the bound. -/
theorem evictLoop_of_le {α : Type} (m : ℕ) (s : CacheStore α) (h : s.length ≤ m) :
    evictLoop m s = s := by
  cases s with
  | nil => rfl
  | cons e es => rw [evictLoop, if_neg (by omega)]

/-- The eviction loop always brings the store within the bound. -/
theorem evictLoop_length_le {α : Type} (m : ℕ) (s : CacheStore α) :
    (evictLoop m s).length ≤ m := by
  induction s with
  | nil => simp [evictLoop]
  | cons e es ih =>
      rw [evictLoop]
      by_cases h : m < (e :: es).length
      · rw [if_pos h]; exact ih
      · rw [if_neg h]; omega

/-- A found key makes `eraseKey` drop at least one entry. -/
theorem eraseKey_length_lt {α : Type} (s : CacheStore α) (k : PyVal) (v : α × ℚ)
    (h : lookupStore s k = some v) : (eraseKey s k).length < s.length := by
  induction s with
  | nil => simp [lookupStore] at h
  | cons e es ih =>
      rw [lookupStore] at h
      simp only [eraseKey, List.filter_cons, List.length_cons]
      cases hbeq : PyVal.beq e.1 k with
      | true =>
          simp only [hbeq, Bool.not_true, Bool.false_eq_true, if_false]
          have hle : (es.filter (fun e => !(PyVal.beq e.1 k))).length ≤ es.length :=
            List.length_filter_le _ _
          omega
      | false =>
          rw [hbeq] at h
          simp only [Bool.false_eq_true, if_false] at h
          have hlt := ih h
          simp only [hbeq, Bool.not_false, if_true, List.length_cons]
          simp only [eraseKey] at hlt
          omega

/-- `_store_result` with a bound set always leaves at most `maxsize`
entries. -/
theorem storeResult_length_le {α : Type} (m : ℕ) (s : CacheStore α) (key : PyVal)
    (r : α) (t : ℚ) : (storeResult (some m) s key r t).length ≤ m := by
  rw [storeResult]
  exact evictLoop_length_le m _

/-- A miss on the empty store invokes the target once and stores its
result (the eviction loop is a no-op for `maxsize ≥ 1` or unset). -/
theorem cacheWrapper_empty_miss {α : Type} (ttl : ℚ) (ms : Option ℕ)
    (f : List PyVal → List (String × PyVal) → α)
    (args : List PyVal) (kwargs : List (String × PyVal)) (key : PyVal) (t : ℚ)
    (hk : mkKey args kwargs = .ok key) (hh : canHash key = true)
    (hms : ms = none ∨ ∃ m, ms = some m ∧ 1 ≤ m) :
    cacheWrapper ttl ms f args kwargs [] t =
      (.ok (f args kwargs, [(key, f args kwargs, t)]), 1) := by
  rw [cacheWrapper, hk]
  simp only [hh, if_true]
  rw [getCached]
  simp only [lookupStore]
  rcases hms with h | ⟨m, hm, h1⟩
  · subst h
    simp [storeResult, eraseKey]
  · subst hm
    simp only [storeResult, eraseKey, List.filter_nil, List.nil_append]
    rw [evictLoop_of_le m _ (by simp [h1])]

/-- A live single-entry store serves a hit: the stored result is
returned, the entry is refreshed in place, the target is not invoked. -/
theorem cacheWrapper_hit_single {α : Type} (ttl : ℚ) (ms : Option ℕ)
    (f : List PyVal → List (String × PyVal) → α)
    (args : List PyVal) (kwargs : List (String × PyVal)) (key : PyVal)
    (r : α) (t1 t2 : ℚ)
    (hk : mkKey args kwargs = .ok key) (hh : canHash key = true)
    (hlive : t2 - t1 < ttl) :
    cacheWrapper ttl ms f args kwargs [(key, r, t1)] t2 =
      (.ok (r, [(key, r, t1)]), 0) := by
  rw [cacheWrapper, hk]
  simp only [hh, if_true]
  rw [getCached]
  simp only [lookupStore, PyVal.beq_refl, if_true, if_pos hlive]
  simp [eraseKey, PyVal.beq_refl]

/-- An expired single-entry store misses: the stale entry is discarded
and the target is invoked again. -/
theorem cacheWrapper_single_expired {α : Type} (ttl : ℚ) (ms : Option ℕ)
    (f : List PyVal → List (String × PyVal) → α)
    (args : List PyVal) (kwargs : List (String × PyVal)) (key : PyVal)
    (r : α) (t1 t2 : ℚ)
    (hk : mkKey args kwargs = .ok key) (hh : canHash key = true)
    (hstale : ttl ≤ t2 - t1)
    (hms : ms = none ∨ ∃ m, ms = some m ∧ 1 ≤ m) :
    cacheWrapper ttl ms f args kwargs [(key, r, t1)] t2 =
      (.ok (f args kwargs, [(key, f args kwargs, t2)]), 1) := by
  rw [cacheWrapper, hk]
  simp only [hh, if_true]
  rw [getCached]
  simp only [lookupStore, PyVal.beq_refl, if_true, if_neg (by linarith : ¬(t2 - t1 < ttl))]
  simp only [eraseKey, List.filter_cons, PyVal.beq_refl, Bool.not_true, Bool.false_eq_true,
    if_false, List.filter_nil]
  rcases hms with h | ⟨m, hm, h1⟩
  · subst h
    simp [storeResult, eraseKey]
  · subst hm
    simp only [storeResult, eraseKey, List.filter_nil, List.nil_append]
    rw [evictLoop_of_le m _ (by simp [h1])]

/-- C1: two sequential calls of a cache-wrapped synchronous target whose
arguments canonicalize to the same key (e.g. reordered keyword
arguments): the first call (empty store) invokes the target once and
stores the result; a second call within `ttl` is a hit — the target is
not invoked again (so at most one invocation in total) and the first
call's result is returned; a second call at or past `ttl` is a miss and
invokes the target again. -/
theorem cache_hit_determinism_and_ttl_expiry {α : Type} (ttl : ℚ) (ms : Option ℕ)
    (f : List PyVal → List (String × PyVal) → α)
    (args1 : List PyVal) (kwargs1 : List (String × PyVal))
    (args2 : List PyVal) (kwargs2 : List (String × PyVal))
    (key : PyVal) (t1 t2 : ℚ)
    (hk1 : mkKey args1 kwargs1 = .ok key) (hk2 : mkKey args2 kwargs2 = .ok key)
    (hh : canHash key = true)
    (hms : ms = none ∨ ∃ m, ms = some m ∧ 1 ≤ m) :
    cacheWrapper ttl ms f args1 kwargs1 [] t1 =
      (.ok (f args1 kwargs1, [(key, f args1 kwargs1, t1)]), 1) ∧
    (t2 - t1 < ttl →
      cacheWrapper ttl ms f args2 kwargs2 [(key, f args1 kwargs1, t1)] t2 =
        (.ok (f args1 kwargs1, [(key, f args1 kwargs1, t1)]), 0)) ∧
    (ttl ≤ t2 - t1 →
      (cacheWrapper ttl ms f args2 kwargs2 [(key, f args1 kwargs1, t1)] t2).2 = 1) :=
  ⟨cacheWrapper_empty_miss ttl ms f args1 kwargs1 key t1 hk1 hh hms,
   fun hlive => cacheWrapper_hit_single ttl ms f args2 kwargs2 key _ t1 t2 hk2 hh hlive,
   fun hstale => by
     rw [cacheWrapper_single_expired ttl ms f args2 kwargs2 key _ t1 t2 hk2 hh hstale hms]⟩

/-- C9: an argument that cannot be canonicalized into a
hashable/comparable key makes the wrapper fail before the target is
invoked — either the `TypeError` of sorting incomparable dict keys
inside `_make_key`, or the `TypeError` of hashing the finished key at
`key in cache_store`; in both cases the target runs zero times. -/
theorem cache_keygen_failure_before_target {α : Type} (ttl : ℚ) (ms : Option ℕ)
    (f : List PyVal → List (String × PyVal) → α)
    (args : List PyVal) (kwargs : List (String × PyVal)) :
    (∀ (e : String) (s : CacheStore α) (now : ℚ),
      mkKey args kwargs = .error e →
      cacheWrapper ttl ms f args kwargs s now = (.error e, 0)) ∧
    (∀ (key : PyVal) (s : CacheStore α) (now : ℚ),
      mkKey args kwargs = .ok key → canHash key = false →
      cacheWrapper ttl ms f args kwargs s now =
        (.error "TypeError: unhashable type", 0)) := by
  constructor
  · intro e s now he
    rw [cacheWrapper, he]
  · intro key s now hk hh
    rw [cacheWrapper, hk]
    simp [hh]

/-- C10: a list and a set holding the same canonicalized elements in the
same encounter order collide to the same canonical value, hence to the
same cache key; so a call with the list argument within `ttl` of a call
with the set argument is a hit that returns the earlier (set) call's
result without invoking the target. -/
theorem cache_list_set_key_collision {α : Type} (ttl : ℚ) (ms : Option ℕ)
    (f : List PyVal → List (String × PyVal) → α) :
    (∀ xs : List PyVal, mkHashable (.vlist xs) = mkHashable (.vset xs)) ∧
    (∀ (xs rest : List PyVal) (kwargs : List (String × PyVal)),
      mkKey (.vlist xs :: rest) kwargs = mkKey (.vset xs :: rest) kwargs) ∧
    (∀ (xs : List PyVal) (key : PyVal) (t1 t2 : ℚ),
      mkKey [.vset xs] [] = .ok key → canHash key = true →
      (ms = none ∨ ∃ m, ms = some m ∧ 1 ≤ m) → t2 - t1 < ttl →
      cacheWrapper ttl ms f [.vset xs] [] [] t1 =
        (.ok (f [.vset xs] [], [(key, f [.vset xs] [], t1)]), 1) ∧
      cacheWrapper ttl ms f [.vlist xs] [] [(key, f [.vset xs] [], t1)] t2 =
        (.ok (f [.vset xs] [], [(key, f [.vset xs] [], t1)]), 0)) := by
  have hls : ∀ xs : List PyVal, mkHashable (.vlist xs) = mkHashable (.vset xs) := by
    intro xs
    simp [mkHashable]
  have hkk : ∀ (xs rest : List PyVal) (kwargs : List (String × PyVal)),
      mkKey (.vlist xs :: rest) kwargs = mkKey (.vset xs :: rest) kwargs := by
    intro xs rest kwargs
    simp only [mkKey, mkHashableList]
    rw [hls xs]
  refine ⟨hls, hkk, ?_⟩
  intro xs key t1 t2 hk hh hms hlive
  have hk2 : mkKey [.vlist xs] [] = .ok key := by
    rw [hkk xs [] []]
    exact hk
  exact ⟨cacheWrapper_empty_miss ttl ms f [.vset xs] [] key t1 hk hh hms,
         cacheWrapper_hit_single ttl ms f [.vlist xs] [] key _ t1 t2 hk2 hh hlive⟩

/-! ## Computation helpers for concrete instances -/

theorem exceptOkBind {ε α β : Type} (a : α) (f : α → Except ε β) :
    (Except.ok a : Except ε α) >>= f = f a := rfl

theorem exceptErrorBind {ε α β : Type} (e : ε) (f : α → Except ε β) :
    (Except.error e : Except ε α) >>= f = .error e := rfl

theorem exceptPureEq {ε α : Type} (a : α) : (pure a : Except ε α) = .ok a := rfl

theorem exceptPureBind {ε α β : Type} (a : α) (f : α → Except ε β) :
    (pure a : Except ε α) >>= f = f a := rfl

/-- Witness for C1: `cache(ttl=0.3)` around a constant target: the first
call with kwargs `{b: 2, a: 1}` misses and invokes the target; a second
call 0.1s later with the same kwargs written in the other order hits,
returns the same result without invoking the target; a second call 0.4s
later misses and invokes the target again. -/
theorem cache_hit_determinism_and_ttl_expiry_witness :
    cacheWrapper (3/10) none constTarget [] [("b", .vint 2), ("a", .vint 1)] [] 0 =
      (.ok (10, [(.vtuple [.vtuple [], .vtuple [.vtuple [.vstr "a", .vint 1],
        .vtuple [.vstr "b", .vint 2]]], 10, 0)]), 1) ∧
    cacheWrapper (3/10) none constTarget [] [("a", .vint 1), ("b", .vint 2)]
        [(.vtuple [.vtuple [], .vtuple [.vtuple [.vstr "a", .vint 1],
          .vtuple [.vstr "b", .vint 2]]], 10, 0)] (1/10) =
      (.ok (10, [(.vtuple [.vtuple [], .vtuple [.vtuple [.vstr "a", .vint 1],
        .vtuple [.vstr "b", .vint 2]]], 10, 0)]), 0) ∧
    (cacheWrapper (3/10) none constTarget [] [("a", .vint 1), ("b", .vint 2)]
        [(.vtuple [.vtuple [], .vtuple [.vtuple [.vstr "a", .vint 1],
          .vtuple [.vstr "b", .vint 2]]], 10, 0)] (2/5)).2 = 1 := by
  have hsort : List.insertionSort (fun a b : String × PyVal => a.1 ≤ b.1)
      [("b", PyVal.vint 2), ("a", PyVal.vint 1)] =
      [("a", PyVal.vint 1), ("b", PyVal.vint 2)] := by
    simp [List.insertionSort, List.orderedInsert]
    decide
  have hsort2 : List.insertionSort (fun a b : String × PyVal => a.1 ≤ b.1)
      [("a", PyVal.vint 1), ("b", PyVal.vint 2)] =
      [("a", PyVal.vint 1), ("b", PyVal.vint 2)] := by
    simp [List.insertionSort, List.orderedInsert]
    decide
  have hk1 : mkKey [] [("b", .vint 2), ("a", .vint 1)] =
      .ok (.vtuple [.vtuple [], .vtuple [.vtuple [.vstr "a", .vint 1],
        .vtuple [.vstr "b", .vint 2]]]) := by
    simp only [mkKey, mkHashableList, List.mapM_cons, List.mapM_nil, mkHashable,
      exceptOkBind, exceptErrorBind, exceptPureEq, hsort, List.map_cons, List.map_nil]
  have hk2 : mkKey [] [("a", .vint 1), ("b", .vint 2)] =
      .ok (.vtuple [.vtuple [], .vtuple [.vtuple [.vstr "a", .vint 1],
        .vtuple [.vstr "b", .vint 2]]]) := by
    simp only [mkKey, mkHashableList, List.mapM_cons, List.mapM_nil, mkHashable,
      exceptOkBind, exceptErrorBind, exceptPureEq, hsort2, List.map_cons, List.map_nil]
  have hh : canHash (.vtuple [.vtuple [], .vtuple [.vtuple [.vstr "a", .vint 1],
      .vtuple [.vstr "b", .vint 2]]]) = true := by
    simp [canHash, canHashList]
  have h := cache_hit_determinism_and_ttl_expiry (3/10) none constTarget
    [] [("b", .vint 2), ("a", .vint 1)] [] [("a", .vint 1), ("b", .vint 2)]
    (.vtuple [.vtuple [], .vtuple [.vtuple [.vstr "a", .vint 1],
      .vtuple [.vstr "b", .vint 2]]]) 0 (1/10) hk1 hk2 hh (Or.inl rfl)
  exact ⟨h.1, h.2.1 (by norm_num), by
    have h3 := cache_hit_determinism_and_ttl_expiry (3/10) none constTarget
      [] [("b", .vint 2), ("a", .vint 1)] [] [("a", .vint 1), ("b", .vint 2)]
      (.vtuple [.vtuple [], .vtuple [.vtuple [.vstr "a", .vint 1],
        .vtuple [.vstr "b", .vint 2]]]) 0 (2/5) hk1 hk2 hh (Or.inl rfl)
    exact h3.2.2 (by norm_num)⟩

/-- Witness for C9: a dict argument with mixed-type keys (`0` and `"a"`)
fails key generation (sorting raises `TypeError`) and a bytearray
argument yields an unhashable key (`TypeError` at the store lookup); in
both cases the wrapper fails with zero target invocations. -/
theorem cache_keygen_failure_before_target_witness :
    cacheWrapper (3/10) none constTarget
        [.vdict [(.vint 0, .vint 1), (.vstr "a", .vint 2)]] [] [] 0 =
      (.error "TypeError: unorderable types", 0) ∧
    cacheWrapper (3/10) none constTarget [.vbytearray [1]] [] [] 0 =
      (.error "TypeError: unhashable type", 0) := by
  constructor
  · refine (cache_keygen_failure_before_target (3/10) none constTarget
      [.vdict [(.vint 0, .vint 1), (.vstr "a", .vint 2)]] []).1
      "TypeError: unorderable types" [] 0 ?_
    simp only [mkKey, mkHashableList, mkHashable, mkHashablePairs, sortE, insertE,
      pyLtPair, pyLt, PyVal.beq, exceptOkBind, exceptErrorBind, exceptPureEq,
      List.mapM_nil, Bool.false_eq_true, if_false]
  · refine (cache_keygen_failure_before_target (3/10) none constTarget
      [.vbytearray [1]] []).2
      (.vtuple [.vtuple [.vbytearray [1]], .vtuple []]) [] 0 ?_ ?_
    · simp only [mkKey, mkHashableList, mkHashable, exceptOkBind, exceptErrorBind,
        exceptPureEq, List.mapM_nil, List.insertionSort, List.map_nil]
    · simp [canHash, canHashList]

/-- Witness for C10: `[1, 2]` and `{1, 2}` produce the same cache key;
a first call with the set stores the result, and a call with the list
0.1s later (ttl 0.3) hits and returns it without invoking the target. -/
theorem cache_list_set_key_collision_witness :
    mkKey [.vlist [.vint 1, .vint 2]] [] = mkKey [.vset [.vint 1, .vint 2]] [] ∧
    cacheWrapper (3/10) none constTarget [.vset [.vint 1, .vint 2]] [] [] 0 =
      (.ok (10, [(.vtuple [.vtuple [.vtuple [.vint 1, .vint 2]], .vtuple []], 10, 0)]), 1) ∧
    cacheWrapper (3/10) none constTarget [.vlist [.vint 1, .vint 2]] []
        [(.vtuple [.vtuple [.vtuple [.vint 1, .vint 2]], .vtuple []], 10, 0)] (1/10) =
      (.ok (10, [(.vtuple [.vtuple [.vtuple [.vint 1, .vint 2]], .vtuple []], 10, 0)]), 0) := by
  have h := cache_list_set_key_collision (3/10) none constTarget
  refine ⟨h.2.1 [.vint 1, .vint 2] [] [], ?_⟩
  have hk : mkKey [.vset [.vint 1, .vint 2]] [] =
      .ok (.vtuple [.vtuple [.vtuple [.vint 1, .vint 2]], .vtuple []]) := by
    simp only [mkKey, mkHashableList, mkHashable, exceptOkBind, exceptErrorBind,
      exceptPureEq, List.mapM_nil, List.insertionSort, List.map_nil]
  have hh : canHash (.vtuple [.vtuple [.vtuple [.vint 1, .vint 2]], .vtuple []]) = true := by
    simp [canHash, canHashList]
  exact h.2.2 [.vint 1, .vint 2]
    (.vtuple [.vtuple [.vtuple [.vint 1, .vint 2]], .vtuple []]) 0 (1/10)
    hk hh (Or.inl rfl) (by norm_num)

/-- Filling a bounded cache with fresh, pairwise-distinct keys (no reads
in between) while staying within the bound appends the new entries in
insertion order, with no eviction. -/
theorem insertFresh_fill {α : Type} (N : ℕ) (t : ℚ) (r : PyVal → α) :
    ∀ (ks : List PyVal) (s : CacheStore α),
      (∀ e ∈ s, ∀ k ∈ ks, PyVal.beq e.1 k = false) →
      List.Pairwise (fun a b => PyVal.beq a b = false) ks →
      s.length + ks.length ≤ N →
      insertFresh (some N) t r s ks = s ++ ks.map (fun k => (k, r k, t)) := by
  intro ks
  induction ks with
  | nil => intro s _ _ _; simp [insertFresh]
  | cons k rest ih =>
      intro s hfresh hpw hlen
      have hlen1 : s.length + 1 ≤ N := by
        simp only [List.length_cons] at hlen
        omega
      have hstep : storeResult (some N) s k (r k) t = s ++ [(k, r k, t)] := by
        simp only [storeResult]
        rw [eraseKey_of_fresh s k (fun e he => hfresh e he k (by simp))]
        refine evictLoop_of_le N _ ?_
        simp only [List.length_append, List.length_singleton]
        omega
      have hnext : insertFresh (some N) t r s (k :: rest) =
          insertFresh (some N) t r (s ++ [(k, r k, t)]) rest := by
        rw [insertFresh, List.foldl_cons, hstep, insertFresh]
      rw [hnext, ih (s ++ [(k, r k, t)]) ?_ hpw.of_cons ?_]
      · simp
      · intro e he k2 hk2
        rcases List.mem_append.mp he with hes | hek
        · exact hfresh e hes k2 (by simp [hk2])
        · have : e = (k, r k, t) := by simpa using hek
          rw [this]
          exact (List.pairwise_cons.mp hpw).1 k2 hk2
      · simp at hlen ⊢
        omega

/-- A cache read never grows the store. -/
theorem getCached_length_le {α : Type} (ttl : ℚ) (s : CacheStore α) (key : PyVal)
    (now : ℚ) : (getCached ttl s key now).2.length ≤ s.length := by
  rw [getCached]
  cases hl : lookupStore s key with
  | none => simp
  | some v =>
      obtain ⟨cr, ts⟩ := v
      have hlt := eraseKey_length_lt s key (cr, ts) hl
      by_cases hlive : now - ts < ttl
      · simp only [hlive, if_true, List.length_append, List.length_singleton]
        omega
      · simp only [hlive, if_false]
        omega

/-- Appending one more insertion to a run of insertions. -/
theorem insertFresh_snoc {α : Type} (N : ℕ) (t : ℚ) (r : PyVal → α)
    (s0 : CacheStore α) (ks : List PyVal) (k : PyVal) :
    insertFresh (some N) t r s0 (ks ++ [k]) =
      storeResult (some N) (insertFresh (some N) t r s0 ks) k (r k) t := by
  rw [insertFresh, insertFresh, List.foldl_append, List.foldl_cons, List.foldl_nil]

/-- C4: (a) after any completed wrapper invocation the store holds at
most `maxsize` entries (given it did before); (b) inserting `N + 1`
pairwise-distinct fresh keys into an empty `maxsize = N` cache with no
intervening reads evicts exactly the first (least-recently-inserted)
key; (c) with `maxsize = N`, after filling with `k0, k1, ...` and
reading `k0` (a hit moves it to the most-recently-used end), inserting a
fresh key evicts `k1` — the read key is protected ahead of the unread
one.  Reads and writes both count as use. -/
theorem cache_lru_bound_and_eviction {α : Type} :
    (∀ (ttl : ℚ) (m : ℕ) (f : List PyVal → List (String × PyVal) → α)
        (args : List PyVal) (kwargs : List (String × PyVal))
        (s : CacheStore α) (now : ℚ) (res : α) (s2 : CacheStore α) (n : ℕ),
      s.length ≤ m →
      cacheWrapper ttl (some m) f args kwargs s now = (.ok (res, s2), n) →
      s2.length ≤ m) ∧
    (∀ (N : ℕ) (t : ℚ) (r : PyVal → α) (init : List PyVal) (klast : PyVal),
      1 ≤ N → init.length = N →
      List.Pairwise (fun a b => PyVal.beq a b = false) (init ++ [klast]) →
      insertFresh (some N) t r [] (init ++ [klast]) =
        ((init ++ [klast]).drop 1).map (fun k => (k, r k, t))) ∧
    (∀ (k0 k1 : PyVal) (krest : List PyVal) (knew : PyVal) (r : PyVal → α) (v : α)
        (ttl t1 t2 t3 : ℚ),
      List.Pairwise (fun a b => PyVal.beq a b = false ∧ PyVal.beq b a = false)
        (k0 :: k1 :: (krest ++ [knew])) →
      t2 - t1 < ttl →
      getCached ttl (insertFresh (some (krest.length + 2)) t1 r [] (k0 :: k1 :: krest)) k0 t2 =
        (some (r k0),
         (k1 :: krest).map (fun k => (k, r k, t1)) ++ [(k0, r k0, t1)]) ∧
      storeResult (some (krest.length + 2))
          ((k1 :: krest).map (fun k => (k, r k, t1)) ++ [(k0, r k0, t1)]) knew v t3 =
        krest.map (fun k => (k, r k, t1)) ++ [(k0, r k0, t1), (knew, v, t3)]) := by
  refine ⟨?_, ?_, ?_⟩
  · intro ttl m f args kwargs s now res s2 n hs h
    rw [cacheWrapper] at h
    split at h
    · simp at h
    · rename_i key hk
      split at h
      · split at h
        · rename_i cachedResult s1 hgc
          simp only [Prod.mk.injEq, Except.ok.injEq] at h
          have hlen1 : s1.length ≤ s.length := by
            have hg := getCached_length_le ttl s key now
            rw [hgc] at hg
            exact hg
          rw [← h.1.2]
          omega
        · rename_i s1 hgc
          simp only [Prod.mk.injEq, Except.ok.injEq] at h
          rw [← h.1.2]
          exact storeResult_length_le m s1 key (f args kwargs) now
      · simp at h
  · intro N t r init klast hN hlen hpw
    obtain ⟨i0, irest, rfl⟩ : ∃ i0 irest, init = i0 :: irest := by
      cases init with
      | nil => simp at hlen; omega
      | cons a l => exact ⟨a, l, rfl⟩
    have hpw1 : List.Pairwise (fun a b => PyVal.beq a b = false) (i0 :: irest) :=
      hpw.sublist (List.sublist_append_left _ _)
    have hfill : insertFresh (some N) t r [] (i0 :: irest) =
        (i0 :: irest).map (fun k => (k, r k, t)) := by
      have h := insertFresh_fill N t r (i0 :: irest) [] (by simp) hpw1
        (by simp only [List.length_nil, Nat.zero_add]; omega)
      simpa using h
    have hfr : ∀ e ∈ (i0 :: irest).map (fun k => (k, r k, t)),
        PyVal.beq e.1 klast = false := by
      intro e he
      obtain ⟨ki, hki, rfl⟩ := List.mem_map.mp he
      exact (List.pairwise_append.mp hpw).2.2 ki hki klast (by simp)
    rw [insertFresh_snoc, hfill]
    simp only [storeResult]
    rw [eraseKey_of_fresh _ klast hfr]
    have hshape : (i0 :: irest).map (fun k => (k, r k, t)) ++ [(klast, r klast, t)] =
        (i0, r i0, t) :: (irest.map (fun k => (k, r k, t)) ++ [(klast, r klast, t)]) := by
      simp
    rw [hshape, evictLoop, if_pos ?pos]
    case pos =>
      simp only [List.length_cons, List.length_append, List.length_map,
        List.length_singleton]
      simp only [List.length_cons] at hlen
      omega
    rw [evictLoop_of_le]
    · simp
    · simp only [List.length_append, List.length_map, List.length_singleton]
      simp only [List.length_cons] at hlen
      omega
  · intro k0 k1 krest knew r v ttl t1 t2 t3 hpw hlive
    have hpw1 : List.Pairwise (fun a b => PyVal.beq a b = false) (k0 :: k1 :: krest) := by
      have hsub : (k0 :: k1 :: krest).Sublist (k0 :: k1 :: (krest ++ [knew])) :=
        (List.sublist_append_left _ _).cons₂ k1 |>.cons₂ k0
      exact (hpw.sublist hsub).imp (fun h => h.1)
    have hfill : insertFresh (some (krest.length + 2)) t1 r [] (k0 :: k1 :: krest) =
        (k0 :: k1 :: krest).map (fun k => (k, r k, t1)) := by
      have h := insertFresh_fill (krest.length + 2) t1 r (k0 :: k1 :: krest) []
        (by simp) hpw1 (by simp)
      simpa using h
    have hk0 : ∀ b ∈ k1 :: (krest ++ [knew]),
        PyVal.beq k0 b = false ∧ PyVal.beq b k0 = false :=
      (List.pairwise_cons.mp hpw).1
    have hfr0 : ∀ e ∈ (k1 :: krest).map (fun k => (k, r k, t1)),
        PyVal.beq e.1 k0 = false := by
      intro e he
      obtain ⟨ki, hki, rfl⟩ := List.mem_map.mp he
      refine (hk0 ki ?_).2
      rcases List.mem_cons.mp hki with h1 | h2
      · simp [h1]
      · simp [h2]
    constructor
    · rw [hfill, getCached]
      simp only [List.map_cons]
      rw [lookupStore]
      simp only [PyVal.beq_refl, if_true, if_pos hlive]
      have herase : eraseKey ((k0, r k0, t1) :: (k1 :: krest).map (fun k => (k, r k, t1))) k0 =
          (k1 :: krest).map (fun k => (k, r k, t1)) := by
        rw [eraseKey, List.filter_cons]
        simp only [PyVal.beq_refl, Bool.not_true, Bool.false_eq_true, if_false]
        exact List.filter_eq_self.mpr (fun e he => by simp [hfr0 e he])
      simp only [List.map_cons] at herase
      rw [herase]
    · have hpwtail : List.Pairwise (fun a b => PyVal.beq a b = false ∧ PyVal.beq b a = false)
          (k1 :: (krest ++ [knew])) := (List.pairwise_cons.mp hpw).2
      have hfrnew : ∀ e ∈ (k1 :: krest).map (fun k => (k, r k, t1)) ++ [(k0, r k0, t1)],
          PyVal.beq e.1 knew = false := by
        intro e he
        rcases List.mem_append.mp he with hm | hm
        · obtain ⟨ki, hki, rfl⟩ := List.mem_map.mp hm
          rcases List.mem_cons.mp hki with h1 | h2
          · subst h1
            exact ((List.pairwise_cons.mp hpwtail).1 knew (by simp)).1
          · have hpw2 := (List.pairwise_cons.mp hpwtail).2
            exact ((List.pairwise_append.mp hpw2).2.2 ki h2 knew (by simp)).1
        · have : e = (k0, r k0, t1) := by simpa using hm
          rw [this]
          exact (hk0 knew (by simp)).1
      simp only [storeResult]
      rw [eraseKey_of_fresh _ knew hfrnew]
      have hshape : ((k1 :: krest).map (fun k => (k, r k, t1)) ++ [(k0, r k0, t1)]) ++
          [(knew, v, t3)] =
          (k1, r k1, t1) :: (krest.map (fun k => (k, r k, t1)) ++
            [(k0, r k0, t1), (knew, v, t3)]) := by
        simp
      rw [hshape, evictLoop, if_pos ?pos2]
      case pos2 => simp
      rw [evictLoop_of_le]
      · simp

/-- Witness for C4: with `maxsize = 1` the store holds one entry after a
miss; with `maxsize = 2`, inserting keys 1,2,3 fresh evicts exactly key
1; filling with 1,2, reading 1, then inserting 3 evicts key 2 and keeps
the freshly-read key 1. -/
theorem cache_lru_bound_and_eviction_witness :
    ([((PyVal.vtuple [.vtuple [.vint 5], .vtuple []] : PyVal), (10 : ℕ), (0 : ℚ))].length ≤ 1) ∧
    insertFresh (some 2) 0 (fun _ => (0 : ℕ)) [] [.vint 1, .vint 2, .vint 3] =
      [(.vint 2, 0, 0), (.vint 3, 0, 0)] ∧
    getCached 1 (insertFresh (some 2) 0 (fun _ => (0 : ℕ)) [] [.vint 1, .vint 2]) (.vint 1) 0 =
      (some 0, [(.vint 2, 0, 0), (.vint 1, 0, 0)]) ∧
    storeResult (some 2) [(.vint 2, 0, 0), (.vint 1, 0, 0)] (.vint 3) 5 0 =
      [(.vint 1, 0, 0), (.vint 3, 5, 0)] := by
  have h := cache_lru_bound_and_eviction (α := ℕ)
  have hc := h.2.2 (.vint 1) (.vint 2) [] (.vint 3) (fun _ => (0 : ℕ)) 5 1 0 0 0
    (by decide) (by norm_num)
  refine ⟨?_, ?_, hc.1, hc.2⟩
  · have hk : mkKey [.vint 5] [] = .ok (.vtuple [.vtuple [.vint 5], .vtuple []]) := by
      simp only [mkKey, mkHashableList, mkHashable, exceptOkBind, exceptPureEq,
        List.mapM_nil, List.insertionSort, List.map_nil]
    have hwrap := cacheWrapper_empty_miss (3/10) (some 1) constTarget [.vint 5] []
      (.vtuple [.vtuple [.vint 5], .vtuple []]) 0 hk (by simp [canHash, canHashList])
      (Or.inr ⟨1, rfl, le_refl 1⟩)
    exact h.1 (3/10) 1 constTarget [.vint 5] [] [] 0 _ _ _ (by simp) hwrap
  · exact h.2.1 2 0 (fun _ => (0 : ℕ)) [.vint 1, .vint 2] (.vint 3) (by omega) (by simp)
      (by decide)

/-! ## Canonical-key determinism (C5): sorting machinery -/

/-- Two lists that are permutations of each other, both sorted by a key
function that is injective on their elements, are equal. -/
theorem sorted_perm_nodup_eq {β γ : Type} [LinearOrder γ] (f : β → γ) :
    ∀ (l1 l2 : List β), l1.Perm l2 →
      l1.Sorted (fun a b => f a ≤ f b) → l2.Sorted (fun a b => f a ≤ f b) →
      (l1.map f).Nodup → l1 = l2 := by
  intro l1
  induction l1 with
  | nil =>
      intro l2 p _ _ _
      exact p.nil_eq
  | cons a t1 ih =>
      intro l2 p s1 s2 nd
      cases l2 with
      | nil => exact absurd p.symm (by simp)
      | cons b t2 =>
          have hab : a = b := by
            by_contra hne
            have hain : a ∈ b :: t2 := p.mem_iff.mp (by simp)
            have hbin : b ∈ a :: t1 := p.mem_iff.mpr (by simp)
            have hat2 : a ∈ t2 := by
              rcases List.mem_cons.mp hain with h | h
              · exact absurd h hne
              · exact h
            have hbt1 : b ∈ t1 := by
              rcases List.mem_cons.mp hbin with h | h
              · exact absurd h.symm hne
              · exact h
            have hfab : f a ≤ f b := (List.sorted_cons.mp s1).1 b hbt1
            have hfba : f b ≤ f a := (List.sorted_cons.mp s2).1 a hat2
            have hfe : f a = f b := le_antisymm hfab hfba
            have : f b ∈ t1.map f := List.mem_map_of_mem f hbt1
            rw [← hfe] at this
            exact (List.nodup_cons.mp (by simpa using nd)).1 this
          subst hab
          have pt : t1.Perm t2 := p.cons_inv
          have := ih t2 pt (List.sorted_cons.mp s1).2 (List.sorted_cons.mp s2).2
            (List.nodup_cons.mp (by simpa using nd)).2
          rw [this]

/-- `mapM` over `Except` on a permuted list: success is preserved and the
results are a permutation. -/
theorem mapM_ok_perm {β γ : Type} (g : β → Except String γ) :
    ∀ {l1 l2 : List β}, l1.Perm l2 → ∀ {r1 : List γ}, l1.mapM g = .ok r1 →
      ∃ r2, l2.mapM g = .ok r2 ∧ r1.Perm r2 := by
  intro l1 l2 p
  induction p with
  | nil =>
      intro r1 h
      exact ⟨r1, h, List.Perm.refl r1⟩
  | cons x p ih =>
      rename_i la lb
      intro r1 h
      rw [List.mapM_cons] at h
      cases hx : g x with
      | error e => rw [hx] at h; exact absurd h (by simp [exceptErrorBind])
      | ok y =>
          rw [hx, exceptOkBind] at h
          cases ht : List.mapM g la with
          | error e => rw [ht] at h; exact absurd h (by simp [exceptErrorBind])
          | ok t =>
              rw [ht, exceptOkBind, exceptPureEq] at h
              obtain ⟨t2, ht2, pt⟩ := ih ht
              refine ⟨y :: t2, ?_, ?_⟩
              · rw [List.mapM_cons, hx, exceptOkBind, ht2, exceptOkBind, exceptPureEq]
              · cases h
                exact pt.cons y
  | swap x y l =>
      intro r1 h
      rw [List.mapM_cons, List.mapM_cons] at h
      cases hy : g y with
      | error e => rw [hy] at h; exact absurd h (by simp [exceptErrorBind])
      | ok b =>
          rw [hy, exceptOkBind] at h
          cases hx : g x with
          | error e => rw [hx] at h; exact absurd h (by simp [exceptErrorBind])
          | ok a =>
              rw [hx, exceptOkBind] at h
              cases hl : List.mapM g l with
              | error e => rw [hl] at h; exact absurd h (by simp [exceptErrorBind])
              | ok t =>
                  rw [hl] at h
                  simp only [exceptOkBind, exceptPureEq, Except.ok.injEq] at h
                  refine ⟨a :: b :: t, ?_, ?_⟩
                  · rw [List.mapM_cons, List.mapM_cons, hx, exceptOkBind, hy,
                      exceptOkBind, hl, exceptOkBind, exceptPureEq, exceptOkBind,
                      exceptPureEq]
                  · rw [← h]
                    exact List.Perm.swap a b t
  | trans p1 p2 ih1 ih2 =>
      intro r1 h
      obtain ⟨r2, h2, p12⟩ := ih1 h
      obtain ⟨r3, h3, p23⟩ := ih2 h2
      exact ⟨r3, h3, p12.trans p23⟩

/-- Canonicalizing the keyword arguments preserves their names. -/
theorem kwargsMapM_fst :
    ∀ (l r : List (String × PyVal)),
      l.mapM (fun p => do pure (p.1, ← mkHashable p.2)) = .ok r →
      r.map Prod.fst = l.map Prod.fst := by
  intro l
  induction l with
  | nil =>
      intro r h
      rw [List.mapM_nil, exceptPureEq] at h
      cases h
      rfl
  | cons p ps ih =>
      intro r h
      simp only [List.mapM_cons] at h
      cases hx : mkHashable p.2 with
      | error e =>
          rw [hx] at h
          simp [exceptErrorBind] at h
      | ok hv =>
          rw [hx] at h
          simp only [exceptOkBind, exceptPureBind] at h
          cases ht : List.mapM (fun p => do pure (p.1, ← mkHashable p.2)) ps with
          | error e =>
              rw [ht] at h
              simp [exceptErrorBind] at h
          | ok rt =>
              rw [ht] at h
              simp only [exceptOkBind, exceptPureBind, exceptPureEq, Except.ok.injEq] at h
              rw [← h]
              simp only [List.map_cons]
              rw [ih rt ht]

/-- Keyword sorting is permutation-invariant once the names are distinct. -/
theorem insertionSort_byName_eq (r1 r2 : List (String × PyVal)) (p : r1.Perm r2)
    (nd : (r1.map Prod.fst).Nodup) :
    List.insertionSort (fun a b => a.1 ≤ b.1) r1 =
      List.insertionSort (fun a b => a.1 ≤ b.1) r2 := by
  haveI ht : IsTotal (String × PyVal) (fun a b => a.1 ≤ b.1) :=
    ⟨fun a b => le_total a.1 b.1⟩
  haveI htr : IsTrans (String × PyVal) (fun a b => a.1 ≤ b.1) :=
    ⟨fun a b c hab hbc => le_trans hab hbc⟩
  refine sorted_perm_nodup_eq (fun q : String × PyVal => q.1) _ _ ?_ ?_ ?_ ?_
  · exact (List.perm_insertionSort _ r1).trans (p.trans (List.perm_insertionSort _ r2).symm)
  · exact List.sorted_insertionSort _ r1
  · exact List.sorted_insertionSort _ r2
  · exact (((List.perm_insertionSort _ r1).map Prod.fst).nodup_iff).mpr nd

/-- `_make_key` is invariant under reordering the keyword arguments
(names distinct, each value canonicalizable) and under replacing the
positional arguments by any list with the same canonicalization. -/
theorem mkKey_canonical_eq (args1 args2 : List PyVal)
    (kwargs1 kwargs2 : List (String × PyVal))
    (hargs : mkHashableList args1 = mkHashableList args2)
    (hperm : kwargs1.Perm kwargs2)
    (hnd : (kwargs1.map Prod.fst).Nodup)
    (hsucc : ∃ r1, kwargs1.mapM (fun p => do pure (p.1, ← mkHashable p.2)) = .ok r1) :
    mkKey args1 kwargs1 = mkKey args2 kwargs2 := by
  obtain ⟨r1, hr1⟩ := hsucc
  obtain ⟨r2, hr2, hp12⟩ := mapM_ok_perm _ hperm hr1
  have hf1 : r1.map Prod.fst = kwargs1.map Prod.fst := kwargsMapM_fst _ _ hr1
  have hnd1 : (r1.map Prod.fst).Nodup := by rw [hf1]; exact hnd
  have hsort : List.insertionSort (fun a b => a.1 ≤ b.1) r1 =
      List.insertionSort (fun a b => a.1 ≤ b.1) r2 :=
    insertionSort_byName_eq r1 r2 hp12 hnd1
  rw [mkKey, mkKey, hargs]
  cases hA : mkHashableList args2 with
  | error e =>
      simp [exceptErrorBind]
  | ok ha =>
      simp only [exceptOkBind]
      rw [hr1, hr2]
      simp only [exceptOkBind, exceptPureBind, hsort]

/-- On elements whose comparisons are governed by an injective key
function, the fallible insertion agrees with `List.orderedInsert`. -/
theorem insertE_eq_orderedInsert {γ : Type} [LinearOrder γ] (f : PyVal × PyVal → γ) :
    ∀ (l : List (PyVal × PyVal)) (x : PyVal × PyVal),
      (∀ y ∈ l, pyLtPair x y = .ok (decide (f x < f y)) ∧ f x ≠ f y) →
      insertE x l = .ok (List.orderedInsert (fun a b => f a ≤ f b) x l) := by
  intro l
  induction l with
  | nil => intro x _; rfl
  | cons y ys ih =>
      intro x hcmp
      obtain ⟨hxy, hne⟩ := hcmp y (by simp)
      rw [insertE, hxy, exceptOkBind, List.orderedInsert]
      by_cases hlt : f x < f y
      · rw [if_pos (by simpa using hlt), if_pos (le_of_lt hlt), exceptPureEq]
      · have hnle : ¬(f x ≤ f y) := fun hle => hlt (lt_of_le_of_ne hle hne)
        rw [if_neg (by simpa using hlt), if_neg hnle,
          ih x (fun z hz => hcmp z (by simp [hz])), exceptOkBind, exceptPureEq]

/-- On a list whose comparisons are governed by a key function injective
on it, the fallible sort agrees with `List.insertionSort`. -/
theorem sortE_eq_insertionSort {γ : Type} [LinearOrder γ] (f : PyVal × PyVal → γ) :
    ∀ (l : List (PyVal × PyVal)),
      (∀ x ∈ l, ∀ y ∈ l, f x ≠ f y → pyLtPair x y = .ok (decide (f x < f y))) →
      (l.map f).Nodup →
      sortE l = .ok (List.insertionSort (fun a b => f a ≤ f b) l) := by
  intro l
  induction l with
  | nil => intro _ _; rfl
  | cons p ps ih =>
      intro hcmp hnd
      simp only [List.map_cons, List.nodup_cons] at hnd
      have hps := ih
        (fun x hx y hy => hcmp x (by simp [hx]) y (by simp [hy]))
        hnd.2
      rw [sortE, hps, exceptOkBind, List.insertionSort]
      refine insertE_eq_orderedInsert f _ p ?_
      intro y hy
      have hyps : y ∈ ps := (List.perm_insertionSort _ ps).mem_iff.mp hy
      have hne : f p ≠ f y := by
        intro he
        exact hnd.1 (he ▸ List.mem_map_of_mem f hyps)
      exact ⟨hcmp p (by simp) y (by simp [hyps]) hne, hne⟩

/-- The fallible sort succeeds and is permutation-invariant on lists
whose comparisons are governed by a key function injective on them. -/
theorem sortE_perm_eq {γ : Type} [LinearOrder γ] (f : PyVal × PyVal → γ)
    (l1 l2 : List (PyVal × PyVal)) (p : l1.Perm l2)
    (hcmp : ∀ x ∈ l1, ∀ y ∈ l1, f x ≠ f y → pyLtPair x y = .ok (decide (f x < f y)))
    (hnd : (l1.map f).Nodup) :
    sortE l1 = sortE l2 ∧ ∃ s, sortE l1 = .ok s := by
  have hcmp2 : ∀ x ∈ l2, ∀ y ∈ l2, f x ≠ f y → pyLtPair x y = .ok (decide (f x < f y)) :=
    fun x hx y hy => hcmp x (p.mem_iff.mpr hx) y (p.mem_iff.mpr hy)
  have hnd2 : (l2.map f).Nodup := ((p.map f).nodup_iff).mp hnd
  haveI ht : IsTotal (PyVal × PyVal) (fun a b => f a ≤ f b) :=
    ⟨fun a b => le_total (f a) (f b)⟩
  haveI htr : IsTrans (PyVal × PyVal) (fun a b => f a ≤ f b) :=
    ⟨fun a b c hab hbc => le_trans hab hbc⟩
  have hsorteq : List.insertionSort (fun a b => f a ≤ f b) l1 =
      List.insertionSort (fun a b => f a ≤ f b) l2 := by
    refine sorted_perm_nodup_eq f _ _ ?_ ?_ ?_ ?_
    · exact (List.perm_insertionSort _ l1).trans (p.trans (List.perm_insertionSort _ l2).symm)
    · exact List.sorted_insertionSort _ l1
    · exact List.sorted_insertionSort _ l2
    · exact (((List.perm_insertionSort _ l1).map f).nodup_iff).mpr hnd
  rw [sortE_eq_insertionSort f l1 hcmp hnd, sortE_eq_insertionSort f l2 hcmp2 hnd2, hsorteq]
  exact ⟨rfl, _, rfl⟩

/-- `mkHashablePairs` is `mapM` of per-pair canonicalization. -/
theorem mkHashablePairs_eq_mapM :
    ∀ ps : List (PyVal × PyVal),
      mkHashablePairs ps = ps.mapM (fun p => do pure (p.1, ← mkHashable p.2)) := by
  intro ps
  induction ps with
  | nil => rw [mkHashablePairs, List.mapM_nil]
  | cons p ps ih =>
      rw [mkHashablePairs, List.mapM_cons, ih]
      cases hx : mkHashable p.2 with
      | error e => simp only [exceptErrorBind]
      | ok hv =>
          simp only [exceptOkBind, exceptPureBind]

/-- Canonicalizing dict pairs preserves the keys. -/
theorem mkHashablePairs_fst :
    ∀ (ps l : List (PyVal × PyVal)), mkHashablePairs ps = .ok l →
      l.map Prod.fst = ps.map Prod.fst := by
  intro ps
  induction ps with
  | nil =>
      intro l h
      rw [mkHashablePairs, exceptPureEq] at h
      cases h
      rfl
  | cons p ps ih =>
      intro l h
      rw [mkHashablePairs] at h
      cases hx : mkHashable p.2 with
      | error e => rw [hx, exceptErrorBind] at h; exact absurd h (by simp)
      | ok hv =>
          rw [hx, exceptOkBind] at h
          cases ht : mkHashablePairs ps with
          | error e => rw [ht, exceptErrorBind] at h; exact absurd h (by simp)
          | ok rt =>
              rw [ht, exceptOkBind, exceptPureEq] at h
              cases h
              simp only [List.map_cons]
              rw [ih rt ht]

/-- `_make_hashable` on a dict is invariant under reordering its pairs,
whenever the keys compare through an injective key function (as `str`
keys or `int` keys do) and the values canonicalize. -/
theorem mkHashable_dict_perm {γ : Type} [LinearOrder γ] (fkey : PyVal → γ)
    (ps1 ps2 : List (PyVal × PyVal)) (hperm : ps1.Perm ps2)
    (hkeys : ∀ a ∈ ps1.map Prod.fst, ∀ b ∈ ps1.map Prod.fst,
      fkey a ≠ fkey b →
      PyVal.beq a b = false ∧ pyLt a b = .ok (decide (fkey a < fkey b)))
    (hnd : ((ps1.map Prod.fst).map fkey).Nodup)
    (hsucc : ∃ l1, mkHashablePairs ps1 = .ok l1) :
    mkHashable (.vdict ps1) = mkHashable (.vdict ps2) := by
  obtain ⟨l1, hl1⟩ := hsucc
  have hm1 : ps1.mapM (fun p => do pure (p.1, ← mkHashable p.2)) = .ok l1 := by
    rw [← mkHashablePairs_eq_mapM]
    exact hl1
  obtain ⟨l2, hl2m, hp12⟩ := mapM_ok_perm _ hperm hm1
  have hl2 : mkHashablePairs ps2 = .ok l2 := by
    rw [mkHashablePairs_eq_mapM]
    exact hl2m
  have hf1 : l1.map Prod.fst = ps1.map Prod.fst := mkHashablePairs_fst ps1 l1 hl1
  have hcmp : ∀ x ∈ l1, ∀ y ∈ l1,
      (fun q : PyVal × PyVal => fkey q.1) x ≠ (fun q : PyVal × PyVal => fkey q.1) y →
      pyLtPair x y =
        .ok (decide ((fun q : PyVal × PyVal => fkey q.1) x <
          (fun q : PyVal × PyVal => fkey q.1) y)) := by
    intro x hx y hy hne
    have hxk : x.1 ∈ ps1.map Prod.fst := by
      rw [← hf1]
      exact List.mem_map_of_mem _ hx
    have hyk : y.1 ∈ ps1.map Prod.fst := by
      rw [← hf1]
      exact List.mem_map_of_mem _ hy
    obtain ⟨hbeq, hlt⟩ := hkeys x.1 hxk y.1 hyk hne
    rw [pyLtPair]
    simp only [hbeq, Bool.false_eq_true, if_false]
    exact hlt
  have hndl : (l1.map (fun q : PyVal × PyVal => fkey q.1)).Nodup := by
    have hmm : l1.map (fun q : PyVal × PyVal => fkey q.1) = (l1.map Prod.fst).map fkey := by
      rw [List.map_map]
      rfl
    rw [hmm, hf1]
    exact hnd
  obtain ⟨hsorteq, s, hs⟩ := sortE_perm_eq (fun q => fkey q.1) l1 l2 hp12 hcmp hndl
  simp only [mkHashable]
  rw [hl1, hl2, exceptOkBind, exceptOkBind, hsorteq]

/-- C5: canonically identical calls produce identical cache keys —
(1) `_make_key` is invariant under reordering the keyword arguments
(distinct names, canonicalizable values) and under replacing the
positional arguments by any list with the same canonicalization;
(2) a dict argument with distinct string keys canonicalizes identically
regardless of pair order; (3) likewise for distinct int keys;
(4) list/set arguments with equal canonicalized element sequences
canonicalize identically (including a list against a set). -/
theorem cache_key_canonicalization :
    (∀ (args1 args2 : List PyVal) (kwargs1 kwargs2 : List (String × PyVal)),
      mkHashableList args1 = mkHashableList args2 →
      kwargs1.Perm kwargs2 →
      (kwargs1.map Prod.fst).Nodup →
      (∃ r1, kwargs1.mapM (fun p => do pure (p.1, ← mkHashable p.2)) = .ok r1) →
      mkKey args1 kwargs1 = mkKey args2 kwargs2) ∧
    (∀ ps1 ps2 : List (PyVal × PyVal), ps1.Perm ps2 →
      (∀ p ∈ ps1, ∃ s, p.1 = PyVal.vstr s) →
      (ps1.map (fun p => keyStr p.1)).Nodup →
      (∃ l1, mkHashablePairs ps1 = .ok l1) →
      mkHashable (.vdict ps1) = mkHashable (.vdict ps2)) ∧
    (∀ ps1 ps2 : List (PyVal × PyVal), ps1.Perm ps2 →
      (∀ p ∈ ps1, ∃ n, p.1 = PyVal.vint n) →
      (ps1.map (fun p => keyInt p.1)).Nodup →
      (∃ l1, mkHashablePairs ps1 = .ok l1) →
      mkHashable (.vdict ps1) = mkHashable (.vdict ps2)) ∧
    (∀ xs ys : List PyVal, mkHashableList xs = mkHashableList ys →
      mkHashable (.vlist xs) = mkHashable (.vlist ys) ∧
      mkHashable (.vset xs) = mkHashable (.vset ys) ∧
      mkHashable (.vlist xs) = mkHashable (.vset ys)) := by
  refine ⟨mkKey_canonical_eq, ?_, ?_, ?_⟩
  · intro ps1 ps2 hperm hstr hnd hsucc
    refine mkHashable_dict_perm keyStr ps1 ps2 hperm ?_ ?_ hsucc
    · intro a ha b hb hne
      obtain ⟨p, hp, rfl⟩ := List.mem_map.mp ha
      obtain ⟨q, hq, rfl⟩ := List.mem_map.mp hb
      obtain ⟨sa, hsa⟩ := hstr p hp
      obtain ⟨sb, hsb⟩ := hstr q hq
      rw [hsa, hsb] at hne ⊢
      have hsne : sa ≠ sb := by simpa [keyStr] using hne
      constructor
      · simp [PyVal.beq, hsne]
      · simp only [pyLt, keyStr]
        congr 1
        exact decide_eq_decide.mpr Iff.rfl
    · have hmm : (ps1.map Prod.fst).map keyStr = ps1.map (fun p => keyStr p.1) := by
        rw [List.map_map]
        rfl
      rw [hmm]
      exact hnd
  · intro ps1 ps2 hperm hint hnd hsucc
    refine mkHashable_dict_perm keyInt ps1 ps2 hperm ?_ ?_ hsucc
    · intro a ha b hb hne
      obtain ⟨p, hp, rfl⟩ := List.mem_map.mp ha
      obtain ⟨q, hq, rfl⟩ := List.mem_map.mp hb
      obtain ⟨na, hna⟩ := hint p hp
      obtain ⟨nb, hnb⟩ := hint q hq
      rw [hna, hnb] at hne ⊢
      have hnne : na ≠ nb := by simpa [keyInt] using hne
      constructor
      · simp [PyVal.beq, hnne]
      · simp only [pyLt, keyInt]
    · have hmm : (ps1.map Prod.fst).map keyInt = ps1.map (fun p => keyInt p.1) := by
        rw [List.map_map]
        rfl
      rw [hmm]
      exact hnd
  · intro xs ys h
    refine ⟨?_, ?_, ?_⟩ <;> simp only [mkHashable, h]

/-- Witness for C5: reordered kwargs `{b: 2, a: 1}` vs `{a: 1, b: 2}`
give the same key; a string-keyed dict and an int-keyed dict
canonicalize identically with their pairs reordered; a list and a set
with the same elements canonicalize identically. -/
theorem cache_key_canonicalization_witness :
    mkKey [] [("b", .vint 2), ("a", .vint 1)] = mkKey [] [("a", .vint 1), ("b", .vint 2)] ∧
    mkHashable (.vdict [(.vstr "b", .vint 2), (.vstr "a", .vint 1)]) =
      mkHashable (.vdict [(.vstr "a", .vint 1), (.vstr "b", .vint 2)]) ∧
    mkHashable (.vdict [(.vint 2, .vstr "y"), (.vint 1, .vstr "x")]) =
      mkHashable (.vdict [(.vint 1, .vstr "x"), (.vint 2, .vstr "y")]) ∧
    mkHashable (.vlist [.vint 1, .vint 2]) = mkHashable (.vset [.vint 1, .vint 2]) := by
  have h := cache_key_canonicalization
  refine ⟨?_, ?_, ?_, ?_⟩
  · refine h.1 [] [] _ _ rfl
      (List.Perm.swap (("a", PyVal.vint 1) : String × PyVal) ("b", PyVal.vint 2) [])
      (by decide) ?_
    refine ⟨[("b", .vint 2), ("a", .vint 1)], ?_⟩
    simp only [List.mapM_cons, List.mapM_nil, mkHashable, exceptOkBind,
      exceptPureBind, exceptPureEq]
  · refine h.2.1 _ _
      (List.Perm.swap ((PyVal.vstr "a", PyVal.vint 1) : PyVal × PyVal)
        (PyVal.vstr "b", PyVal.vint 2) [])
      ?_ ?_ ?_
    · intro p hp
      simp only [List.mem_cons, List.not_mem_nil, or_false] at hp
      rcases hp with h1 | h1 <;> subst h1
      · exact ⟨"b", rfl⟩
      · exact ⟨"a", rfl⟩
    · simp only [List.map_cons, List.map_nil, keyStr]
      decide
    · refine ⟨[(.vstr "b", .vint 2), (.vstr "a", .vint 1)], ?_⟩
      simp only [mkHashablePairs, mkHashable, exceptOkBind, exceptPureBind, exceptPureEq]
  · refine h.2.2.1 _ _
      (List.Perm.swap ((PyVal.vint 1, PyVal.vstr "x") : PyVal × PyVal)
        (PyVal.vint 2, PyVal.vstr "y") [])
      ?_ ?_ ?_
    · intro p hp
      simp only [List.mem_cons, List.not_mem_nil, or_false] at hp
      rcases hp with h1 | h1 <;> subst h1
      · exact ⟨2, rfl⟩
      · exact ⟨1, rfl⟩
    · simp only [List.map_cons, List.map_nil, keyInt]
      decide
    · refine ⟨[(.vint 2, .vstr "y"), (.vint 1, .vstr "x")], ?_⟩
      simp only [mkHashablePairs, mkHashable, exceptOkBind, exceptPureBind, exceptPureEq]
  · exact (h.2.2.2 [.vint 1, .vint 2] [.vint 1, .vint 2] rfl).2.2
